import Mathlib

set_option maxRecDepth 8192

/- Verification of the copy-on-write hardlink layer (`SafeHardlinkOps` in
   `src/buildstream/_fuse/hardlinks.py`) and of the platform resolver
   (`Platform` in `src/buildstream/_platform/platform.py`).

   The filesystem store is modelled as an association of real paths to inode
   identifiers together with an association of inode identifiers to inode data;
   a hardlink is two path entries naming the same inode, and the link count of
   an inode is the number of path entries naming it.  The `os`/`shutil`
   primitives the Python code calls are modelled explicitly below, each with a
   comment stating which POSIX behaviour it captures. -/

/-- Byte string of a regular file's content. -/
abbrev Bytes := List Nat

/-- Model of Python `str.startswith`. -/
def pyStartsWith (s pre : String) : Bool := pre.data.isPrefixOf s.data

/-- Model of Python `str.endswith`. -/
def pyEndsWith (s suf : String) : Bool := suf.data.isSuffixOf s.data

/-- Model of Python `s[1:]` on strings. -/
def strDrop1 (s : String) : String := String.mk (s.data.drop 1)

/-- Model of `posixpath.join` restricted to two arguments, as in
`os.path.join(self.root, partial)`: an absolute second component discards the
first, otherwise the two are joined with a separator unless the first is empty
or already ends with one. -/
def pathJoin (a b : String) : String :=
  if pyStartsWith b "/" then b
  else if a = "" || pyEndsWith a "/" then a ++ b
  else a ++ "/" ++ b

/-- Characters of the last path component (helper for `pyBasename`). -/
def basenameAux : List Char → List Char → List Char
  | [], acc => acc.reverse
  | c :: rest, acc => if c = '/' then basenameAux rest [] else basenameAux rest (c :: acc)

/-- Model of `os.path.basename`: everything after the last separator. -/
def pyBasename (p : String) : String := String.mk (basenameAux p.data [])

/-- Data held by one inode of the real store.  Regular files carry mode bits,
content bytes and timestamps; directories carry mode bits; symbolic links
carry their stored target string. -/
inductive INodeData where
  | file (mode : Nat) (content : Bytes) (atime mtime : Nat)
  | dir (mode : Nat)
  | symlink (target : String)
  deriving DecidableEq, Repr

/-- Whether the inode is a directory (`stat.S_ISDIR`). -/
def INodeData.isDir : INodeData → Bool
  | .dir _ => true
  | _ => false

/-- Whether the inode is a symbolic link. -/
def INodeData.isSymlink : INodeData → Bool
  | .symlink _ => true
  | _ => false

/-- Whether the inode is a regular file. -/
def INodeData.isRegFile : INodeData → Bool
  | .file .. => true
  | _ => false

/-- Replace the mode bits of an inode (`os.chmod` payload). -/
def INodeData.withMode : INodeData → Nat → INodeData
  | .file _ c a m, mo => .file mo c a m
  | .dir _, mo => .dir mo
  | .symlink t, _ => .symlink t

/-- Empty the content of a regular file (`O_TRUNC` payload). -/
def INodeData.truncated : INodeData → INodeData
  | .file m _ a mt => .file m [] a mt
  | d => d

/-- State of the real backing store: directory entries mapping real paths to
inode ids, the inode table, and a fresh-inode counter.  Two entries with the
same inode id are hardlinks of one another. -/
structure FS where
  names : List (String × Nat)
  inodes : List (Nat × INodeData)
  nextInode : Nat
  deriving DecidableEq, Repr

/-- The `st_nlink` of an inode: how many directory entries name it. -/
def linkCount (fs : FS) (ino : Nat) : Nat := fs.names.countP (fun e => e.2 == ino)

/-- Well-formedness of a store state: directory entries have distinct paths,
the inode table has distinct ids, and every id in use is below the
fresh-inode counter. -/
def FS.WF (fs : FS) : Prop :=
  (fs.names.map Prod.fst).Nodup ∧ (fs.inodes.map Prod.fst).Nodup ∧
    (∀ e ∈ fs.names, e.2 < fs.nextInode) ∧ (∀ e ∈ fs.inodes, e.1 < fs.nextInode)

/-- Fuelled symlink resolution (helper for `osRealpath`). -/
def osRealpathAux (fs : FS) : Nat → String → String
  | 0, p => p
  | fuel + 1, p =>
    match List.lookup p fs.names with
    | none => p
    | some ino =>
      match List.lookup ino fs.inodes with
      | some (INodeData.symlink t) => osRealpathAux fs fuel t
      | _ => p

/-- Model of `os.path.realpath`: follow the chain of symbolic links at the
path until a non-link (or missing) object is reached.  Link targets are taken
to be absolute real paths; a nonexistent path resolves to itself, as
`realpath` does not fail on missing files. -/
def osRealpath (fs : FS) (p : String) : String :=
  osRealpathAux fs (fs.names.length + 1) p

/-- Fixed name standing for the randomized directory that
`tempfile.TemporaryDirectory(dir=self.tmp)` creates; its freshness is an
explicit hypothesis of the theorems that use it. -/
def stageDirName : String := "cowstage"

/-- The staging path `os.path.join(tempdir, basename)` used by
`SafeHardlinkOps._ensure_copy`. -/
def stagePath (tmp rp : String) : String :=
  pathJoin (pathJoin tmp stageDirName) (pyBasename rp)

/-- Body of `SafeHardlinkOps._ensure_copy` after the `real_path` resolution:
`os.stat(real_path, follow_symlinks=False)` (a missing target raises
`FileNotFoundError`, which the source swallows), the `st_nlink <= 1` early
return, the `S_ISDIR` skip, and otherwise the privatization sequence
`shutil.copy2` (clone the inode data to a fresh inode named by the staging
path), `os.unlink(real_path)`, `os.rename(temp_path, real_path)`. -/
def ensureCopyAt (fs : FS) (tmp rp : String) : FS :=
  match List.lookup rp fs.names with
  | none => fs
  | some ino =>
    match List.lookup ino fs.inodes with
    | none => fs
    | some d =>
      if linkCount fs ino ≤ 1 then fs
      else if d.isDir then fs
      else
        let tempPath := stagePath tmp rp
        let n := fs.nextInode
        let fs1 : FS :=
          { names := (tempPath, n) :: fs.names
            inodes := (n, d) :: fs.inodes
            nextInode := n + 1 }
        let fs2 : FS := { fs1 with names := fs1.names.filter (fun e => e.1 != rp) }
        { fs2 with names := (rp, n) :: fs2.names.filter (fun e => e.1 != tempPath) }

/-- Embedding of `SafeHardlinkOps._ensure_copy(full_path, follow_symlinks)`: resolve the
target (`os.path.realpath` when following symlinks, the path itself
otherwise), then run the privatization body. -/
def ensureCopy (fs : FS) (tmp full : String) (followSymlinks : Bool) : FS :=
  ensureCopyAt fs tmp (if followSymlinks then osRealpath fs full else full)

/-- The sequence of store states observable while `_ensure_copy` runs, one
state after each mutating storage call of the privatization block: the
initial state, the state after `shutil.copy2`, the state after `os.unlink`,
and the state after `os.rename`.  On the no-op branches only the initial
state is observable. -/
def ensureCopyTraceAt (fs : FS) (tmp rp : String) : List FS :=
  match List.lookup rp fs.names with
  | none => [fs]
  | some ino =>
    match List.lookup ino fs.inodes with
    | none => [fs]
    | some d =>
      if linkCount fs ino ≤ 1 then [fs]
      else if d.isDir then [fs]
      else
        let tempPath := stagePath tmp rp
        let n := fs.nextInode
        let fs1 : FS :=
          { names := (tempPath, n) :: fs.names
            inodes := (n, d) :: fs.inodes
            nextInode := n + 1 }
        let fs2 : FS := { fs1 with names := fs1.names.filter (fun e => e.1 != rp) }
        let fs3 : FS := { fs2 with names := (rp, n) :: fs2.names.filter (fun e => e.1 != tempPath) }
        [fs, fs1, fs2, fs3]

/-- Observable states of `_ensure_copy(full_path, follow_symlinks)`. -/
def ensureCopyTrace (fs : FS) (tmp full : String) (followSymlinks : Bool) : List FS :=
  ensureCopyTraceAt fs tmp (if followSymlinks then osRealpath fs full else full)

/-- Update the mode bits stored at inode `n` of the table. -/
def setModeAt (fs : FS) (n m : Nat) : FS :=
  { fs with inodes := fs.inodes.map (fun e => if e.1 == n then (e.1, e.2.withMode m) else e) }

/-- Truncate the content stored at inode `n` of the table. -/
def truncAt (fs : FS) (n : Nat) : FS :=
  { fs with inodes := fs.inodes.map (fun e => if e.1 == n then (e.1, e.2.truncated) else e) }

/-- Model of `os.chmod(path, mode)` with its default symlink dereferencing:
apply the new mode bits to the inode the resolved path names; a missing
target is an error (`none`). -/
def osChmod (fs : FS) (p : String) (m : Nat) : Option FS :=
  let rp := osRealpath fs p
  match List.lookup rp fs.names with
  | none => none
  | some ino => some (setModeAt fs ino m)

/-- Model of `os.chown(path, uid, gid, follow_symlinks=False)`: the target
must exist; ownership ids are not part of the observable store state of this
model (no claim mentions them), so a successful call returns the store
unchanged. -/
def osChown (fs : FS) (p : String) (uid gid : Nat) : Option FS :=
  match List.lookup p fs.names with
  | none => none
  | some _ => some fs

/-- Whether `O_WRONLY` (bit 0) or `O_RDWR` (bit 1) is requested, exactly the test
`flags & os.O_WRONLY or flags & os.O_RDWR` of the source. -/
def writeCapable (flags : Nat) : Bool := flags.testBit 0 || flags.testBit 1

/-- Whether `O_CREAT` (0o100) is requested. -/
def hasCreatFlag (flags : Nat) : Bool := flags.testBit 6

/-- Whether `O_TRUNC` (0o1000) is requested. -/
def hasTruncFlag (flags : Nat) : Bool := flags.testBit 9

/-- Model of `os.open(path, flags, mode)`: symlinks are dereferenced; an
existing target yields a handle (the inode id), truncating the content when
`O_TRUNC` is requested together with write access; a missing target is
created fresh when `O_CREAT` is requested (umask and current time are not
modelled: the new file gets the requested mode and zero timestamps) and is an
error otherwise. -/
def osOpen (fs : FS) (p : String) (flags m : Nat) : Option (FS × Nat) :=
  let rp := osRealpath fs p
  match List.lookup rp fs.names with
  | some ino =>
    if hasTruncFlag flags && writeCapable flags then some (truncAt fs ino, ino)
    else some (fs, ino)
  | none =>
    if hasCreatFlag flags then
      some ({ names := (rp, fs.nextInode) :: fs.names
              inodes := (fs.nextInode, INodeData.file m [] 0 0) :: fs.inodes
              nextInode := fs.nextInode + 1 },
            fs.nextInode)
    else none

/-- The mount's operation dispatcher: `SafeHardlinkOps(root, tmp)`. -/
structure SafeHardlinkOps where
  root : String
  tmp : String

/-- Embedding of `SafeHardlinkOps._full_path`: strip one leading separator and join the
remainder onto the mount root. -/
def SafeHardlinkOps.fullPath (ops : SafeHardlinkOps) (p : String) : String :=
  pathJoin ops.root (if pyStartsWith p "/" then strDrop1 p else p)

/-- Embedding of `SafeHardlinkOps.chmod`: translate the path, `self._ensure_copy(full_path)`
(with the default `follow_symlinks=True`), then `os.chmod(full_path, mode)`. -/
def SafeHardlinkOps.chmod (ops : SafeHardlinkOps) (fs : FS) (vp : String) (m : Nat) :
    Option FS :=
  let full := ops.fullPath vp
  osChmod (ensureCopy fs ops.tmp full true) full m

/-- Embedding of `SafeHardlinkOps.chown`: translate the path,
`self._ensure_copy(full_path, follow_symlinks=False)`, then
`os.chown(full_path, uid, gid, follow_symlinks=False)`. -/
def SafeHardlinkOps.chown (ops : SafeHardlinkOps) (fs : FS) (vp : String) (uid gid : Nat) :
    Option FS :=
  let full := ops.fullPath vp
  osChown (ensureCopy fs ops.tmp full false) full uid gid

/-- Embedding of `SafeHardlinkOps.open`: translate the path, `self._ensure_copy(full_path)`
only when the flags request write access, then `os.open(full_path, flags)`
(whose default creation mode is 0o777). -/
def SafeHardlinkOps.openOp (ops : SafeHardlinkOps) (fs : FS) (vp : String) (flags : Nat) :
    Option (FS × Nat) :=
  let full := ops.fullPath vp
  let fs1 := if writeCapable flags then ensureCopy fs ops.tmp full true else fs
  osOpen fs1 full flags 511

/-- Embedding of `SafeHardlinkOps.create`: translate the path, unconditionally
`self._ensure_copy(full_path)`, then `os.open(full_path, fi, mode)`. -/
def SafeHardlinkOps.create (ops : SafeHardlinkOps) (fs : FS) (vp : String) (m flags : Nat) :
    Option (FS × Nat) :=
  let full := ops.fullPath vp
  osOpen (ensureCopy fs ops.tmp full true) full flags m

/-- The change-mode operation as the specification's sentence for claim C3
describes it: `ensure_private` in non-dereferencing mode (the path itself,
symlinks not followed), then apply the new mode.  This is the comparison
definition for a refinement check; the source's own behaviour is
`SafeHardlinkOps.chmod`. -/
def chmodNonDereferencing (ops : SafeHardlinkOps) (fs : FS) (vp : String) (m : Nat) :
    Option FS :=
  let full := ops.fullPath vp
  osChmod (ensureCopy fs ops.tmp full false) full m

/-- Split a character list at separators (helper for `pathParts`); mirrors
Python `str.split('/')`, empty pieces included. -/
def splitSlashAux : List Char → List Char → List (List Char)
  | [], acc => [acc.reverse]
  | c :: rest, acc =>
    if c = '/' then acc.reverse :: splitSlashAux rest [] else splitSlashAux rest (c :: acc)

/-- The nonempty components of a path, as in the comprehension
`[x for x in path.split(sep) if x]` inside `posixpath.relpath`. -/
def pathParts (p : String) : List String :=
  ((splitSlashAux p.data []).filter (fun l => l ≠ [])).map String.mk

/-- Fold `.` and `..` components over an accumulated absolute component list,
as `posixpath.normpath` does for absolute paths (a `..` at the root is
dropped). -/
def applyParts : List String → List String → List String
  | acc, [] => acc
  | acc, c :: rest =>
    if c = "." then applyParts acc rest
    else if c = ".." then applyParts acc.dropLast rest
    else applyParts (acc ++ [c]) rest

/-- Normalized component list of an absolute path, as computed by
`posixpath.abspath` on an already-absolute argument. -/
def absParts (p : String) : List String := applyParts [] (pathParts p)

/-- Length of the common prefix of two component lists, as the zip loop of
`posixpath.relpath` computes it. -/
def commonPrefixLen : List String → List String → Nat
  | a :: as, b :: bs => if a = b then commonPrefixLen as bs + 1 else 0
  | _, _ => 0

/-- Join components with separators (`posixpath.join` over relative
components). -/
def joinParts : List String → String
  | [] => ""
  | [x] => x
  | x :: rest => x ++ "/" ++ joinParts rest

/-- Model of `posixpath.relpath(path, start)` for absolute arguments: drop
the common prefix of the normalized component lists, climb out of the
remaining `start` components with `..`, and append the remaining `path`
components; an empty result is the current directory. -/
def pyRelpath (path start : String) : String :=
  let pl := absParts path
  let sl := absParts start
  let i := commonPrefixLen sl pl
  let rel := List.replicate (sl.length - i) ".." ++ pl.drop i
  if rel = [] then "." else joinParts rel

/-- Embedding of `SafeHardlinkOps.readlink`: read the stored target of the symlink at the
translated path (`os.readlink` does not dereference and fails on
non-symlinks); an absolute stored target is rewritten with
`os.path.relpath(pathname, self.root)` before being returned. -/
def SafeHardlinkOps.readlink (ops : SafeHardlinkOps) (fs : FS) (vp : String) :
    Option String :=
  let full := ops.fullPath vp
  match List.lookup full fs.names with
  | none => none
  | some ino =>
    match List.lookup ino fs.inodes with
    | some (INodeData.symlink t) =>
      some (if pyStartsWith t "/" then pyRelpath t ops.root else t)
    | _ => none

/-- Message of the `ImplError` the base `Platform` methods raise:
`"Platform {platform} does not implement <op>()"` with the backend's class
name interpolated. -/
def implMsg (cls op : String) : String :=
  "Platform " ++ cls ++ " does not implement " ++ op ++ "()"

/-- A sandbox backend: its class name and its optional overrides of the two
abstract resolver operations (`none` models a backend that inherits the
default, always-raising, base implementation). -/
structure Backend where
  name : String
  createSandboxImpl : Option (Nat → Except String Nat)
  checkSandboxConfigImpl : Option (Nat → Except String Bool)

/-- Embedding of the `Platform.create_sandbox` dispatch: the backend's override when present,
otherwise the base method raising `ImplError`. -/
def Backend.createSandbox (b : Backend) (args : Nat) : Except String Nat :=
  match b.createSandboxImpl with
  | some f => f args
  | none => Except.error (implMsg b.name "create_sandbox")

/-- Embedding of the `Platform.check_sandbox_config` dispatch: the backend's override when
present, otherwise the base method raising `ImplError`. -/
def Backend.checkSandboxConfig (b : Backend) (config : Nat) : Except String Bool :=
  match b.checkSandboxConfigImpl with
  | some f => f config
  | none => Except.error (implMsg b.name "check_sandbox_config")

/-- The concrete platform implementations `Platform._create_instance` can
instantiate (`.linux` from `.linux.Linux`, `.unix` from `.unix.Unix`). -/
inductive PlatformImpl where
  | linux
  | unix
  deriving DecidableEq, Repr

/-- Backend-name selection of `Platform._create_instance`: `"linux"` when the
host OS is Linux, `"unix"` otherwise, overridden by the `BST_FORCE_BACKEND`
environment variable when it is set and nonempty (Python truthiness of
`os.getenv`). -/
def detectBackend (osIsLinux : Bool) (forceBackend : Option String) : String :=
  let backend := if osIsLinux then "linux" else "unix"
  match forceBackend with
  | some s => if s = "" then backend else s
  | none => backend

/-- The ASCII apostrophe used by the `PlatformError` message. -/
def quoteChar : Char := Char.ofNat 39

/-- Message of the `PlatformError` raised on an unknown backend name. -/
def noSuchPlatformMsg (b : String) : String :=
  "No such platform: " ++ String.mk [quoteChar] ++ b ++ String.mk [quoteChar]

/-- Embedding of `Platform._create_instance`: select the backend name, then instantiate
the matching implementation class or raise `PlatformError`. -/
def createInstance (osIsLinux : Bool) (forceBackend : Option String) :
    Except String PlatformImpl :=
  let b := detectBackend osIsLinux forceBackend
  if b = "linux" then Except.ok PlatformImpl.linux
  else if b = "unix" then Except.ok PlatformImpl.unix
  else Except.error (noSuchPlatformMsg b)

/-- Embedding of `Platform.get_platform` over an explicit `cls._instance` state (an object
instance is always truthy, so `if not cls._instance` is exactly a `none`
test).  The returned triple is the instance handed to the caller, the new
`cls._instance` state, and an instrumentation bit recording whether
`_create_instance` (and with it the OS detection and the environment
override) was consulted during the call. -/
def getPlatform (inst : Option PlatformImpl) (osIsLinux : Bool)
    (forceBackend : Option String) :
    Except String (PlatformImpl × Option PlatformImpl × Bool) :=
  match inst with
  | some i => Except.ok (i, some i, false)
  | none =>
    match createInstance osIsLinux forceBackend with
    | Except.ok b => Except.ok (b, some b, true)
    | Except.error e => Except.error e

/-- Outcome required of a mutating operation on a shared regular file at real
path `full` whose original inode is `ino` with data `d`: afterwards the path
names the fresh private inode `n` whose link count is 1, and every other
hardlinked name of the original inode still names `ino`, whose data is
untouched. -/
def privatizedOutcome (fs : FS) (full : String) (ino n : Nat) (d : INodeData)
    (fsOut : FS) : Prop :=
  List.lookup full fsOut.names = some n ∧ linkCount fsOut n = 1 ∧
    ∀ p, ¬ p = full → List.lookup p fs.names = some ino →
      List.lookup p fsOut.names = some ino ∧ List.lookup ino fsOut.inodes = some d

/-- Conclusion bundle of claim C1, for a shared regular file at real path
`full` with inode `ino` holding data `d`.  The privatized interim state
`fsMid` (reached before any payload mutation proceeds) maps the path to the
fresh sole-owner inode `n` carrying exactly the original data `d` (same
bytes, mode bits and timestamps) and leaves every other entry untouched;
each of the four mutating operations — change mode, change owner,
write-capable open, and create — is the privatization followed by its own
payload on the real store; and after each complete operation the path still
names the sole-owner inode while every other hardlinked name of the original
inode is unaffected. -/
def cowConclusion (ops : SafeHardlinkOps) (fs : FS) (vp full : String)
    (m uid gid oflags cm cflags ino : Nat) (d : INodeData) : Prop :=
  let fsMid := ensureCopy fs ops.tmp full true
  let n := fs.nextInode
  List.lookup full fsMid.names = some n ∧
  ¬ n = ino ∧
  linkCount fsMid n = 1 ∧
  List.lookup n fsMid.inodes = some d ∧
  (∀ p, ¬ p = full → List.lookup p fsMid.names = List.lookup p fs.names) ∧
  (∀ i, ¬ i = n → List.lookup i fsMid.inodes = List.lookup i fs.inodes) ∧
  ops.chmod fs vp m = osChmod fsMid full m ∧
  ops.chown fs vp uid gid = osChown fsMid full uid gid ∧
  ops.openOp fs vp oflags = osOpen fsMid full oflags 511 ∧
  ops.create fs vp cm cflags = osOpen fsMid full cflags cm ∧
  (∀ fsc, ops.chmod fs vp m = some fsc → privatizedOutcome fs full ino n d fsc) ∧
  (∀ fsc, ops.chown fs vp uid gid = some fsc → privatizedOutcome fs full ino n d fsc) ∧
  (∀ fso fd, ops.openOp fs vp oflags = some (fso, fd) →
    privatizedOutcome fs full ino n d fso) ∧
  (∀ fso fd, ops.create fs vp cm cflags = some (fso, fd) →
    privatizedOutcome fs full ino n d fso)

/-- Conclusion bundle of the amended claim C3: on a virtual path whose
translated path `full` is a symlink (inode `lino`) to a shared regular file
at `rp` (inode `ino`, data `d`), the change-mode operation privatizes the
dereferenced referent `rp` — not the link — into the fresh sole-owner inode
`n`, then applies the new mode to that referent; every other entry, the
symlink itself included, is untouched. -/
def chmodDerefConclusion (ops : SafeHardlinkOps) (fs : FS) (vp full rp : String)
    (m ino : Nat) (d : INodeData) : Prop :=
  let fsMid := ensureCopy fs ops.tmp full true
  let n := fs.nextInode
  ops.chmod fs vp m = some (setModeAt fsMid n m) ∧
  List.lookup rp fsMid.names = some n ∧
  linkCount fsMid n = 1 ∧
  List.lookup n fsMid.inodes = some d ∧
  List.lookup n (setModeAt fsMid n m).inodes = some (d.withMode m) ∧
  (∀ p, ¬ p = rp → List.lookup p fsMid.names = List.lookup p fs.names) ∧
  privatizedOutcome fs rp ino n d (setModeAt fsMid n m)

/-- Whether `needle` occurs contiguously inside the list (helper for
`mentions`). -/
def containsAux {α : Type} [BEq α] (needle : List α) : List α → Bool
  | [] => needle.isEmpty
  | a :: as => needle.isPrefixOf (a :: as) || containsAux needle as

/-- Whether the string `part` occurs inside the message `msg`. -/
def mentions (msg part : String) : Bool := containsAux part.data msg.data

/-- The lexical-containment contract of the path translator: the result
either is the mount root or extends it below a separator. -/
def lexInside (root p : String) : Prop :=
  p = root ∨ pyStartsWith p (root ++ "/") = true

/-- A dispatcher over mount root `/r` with scratch directory `/t`. -/
def opsEx : SafeHardlinkOps := { root := "/r", tmp := "/t" }

/-- A store holding one regular file with two hardlinked names `/r/a` and
`/r/b` (mode 0o644, content the two bytes `X Y`). -/
def fsShared : FS :=
  { names := [("/r/a", 0), ("/r/b", 0)]
    inodes := [(0, INodeData.file 420 [88, 89] 5 6)]
    nextInode := 1 }

/-- A store holding a directory with two entries naming it (its reported
`st_nlink` is 2) and a regular file with a single name. -/
def fsNoop : FS :=
  { names := [("/r/d1", 0), ("/r/d2", 0), ("/r/f", 1)]
    inodes := [(0, INodeData.dir 493), (1, INodeData.file 420 [88] 1 2)]
    nextInode := 2 }

/-- A store holding a symlink `/r/link` to `/r/target`, where the referent is
a regular file shared with the second name `/r/t2`. -/
def fsLink : FS :=
  { names := [("/r/link", 2), ("/r/target", 0), ("/r/t2", 0)]
    inodes := [(2, INodeData.symlink "/r/target"), (0, INodeData.file 420 [88] 1 2)]
    nextInode := 3 }

/-- The empty store (a fresh empty mount root). -/
def fsFresh : FS := { names := [], inodes := [], nextInode := 0 }

/-- A store holding one symlink `/r/l` whose stored target is the absolute
path `/r/sub/f`, plus one whose stored target is relative. -/
def fsSymRead : FS :=
  { names := [("/r/l", 0), ("/r/rel", 1)]
    inodes := [(0, INodeData.symlink "/r/sub/f"), (1, INodeData.symlink "sub/g")]
    nextInode := 2 }

/-- A backend that overrides neither resolver operation. -/
def backendEx : Backend :=
  { name := "Unix", createSandboxImpl := none, checkSandboxConfigImpl := none }

/- Association-list helper lemmas used throughout the development. -/

theorem lookup_cons_self {α β : Type} [BEq α] [LawfulBEq α] (l : List (α × β)) (a : α) (b : β) :
    List.lookup a ((a, b) :: l) = some b := by
  simp [List.lookup_cons]

theorem lookup_cons_ne {α β : Type} [BEq α] [LawfulBEq α] (l : List (α × β)) (a k : α) (b : β)
    (h : ¬ a = k) : List.lookup a ((k, b) :: l) = List.lookup a l := by
  rw [List.lookup_cons]
  have hb : (a == k) = false := beq_eq_false_iff_ne.mpr h
  rw [hb]

theorem mem_of_lookup_eq_some {α β : Type} [BEq α] [LawfulBEq α] {l : List (α × β)} {a : α}
    {b : β} (h : List.lookup a l = some b) : (a, b) ∈ l := by
  induction l with
  | nil => simp at h
  | cons e t ih =>
    obtain ⟨k, v⟩ := e
    rw [List.lookup_cons] at h
    by_cases hk : a = k
    · subst hk
      simp at h
      subst h
      exact List.mem_cons_self _ _
    · have hb : (a == k) = false := beq_eq_false_iff_ne.mpr hk
      rw [hb] at h
      exact List.mem_cons_of_mem _ (ih h)

theorem lookup_none_key_ne {α β : Type} [BEq α] [LawfulBEq α] {l : List (α × β)} {a : α}
    (h : List.lookup a l = none) : ∀ e ∈ l, ¬ e.1 = a := by
  induction l with
  | nil => intro e he; simp at he
  | cons e t ih =>
    obtain ⟨k, v⟩ := e
    rw [List.lookup_cons] at h
    by_cases hk : a = k
    · subst hk; simp at h
    · have hb : (a == k) = false := beq_eq_false_iff_ne.mpr hk
      rw [hb] at h
      intro f hf
      rcases List.mem_cons.mp hf with hf | hf
      · subst hf; exact fun he => hk he.symm
      · exact ih h f hf

theorem lookup_filter_ne {α β : Type} [BEq α] [LawfulBEq α] (l : List (α × β)) (a b : α)
    (h : ¬ a = b) :
    List.lookup a (l.filter (fun e => e.1 != b)) = List.lookup a l := by
  induction l with
  | nil => rfl
  | cons e t ih =>
    obtain ⟨k, v⟩ := e
    by_cases hk : k = b
    · subst hk
      have : (((k : α), v).1 != k) = false := by simp
      rw [List.filter_cons, this]
      simp only [Bool.false_eq_true, if_false]
      rw [ih, lookup_cons_ne _ _ _ _ (fun hak => h hak)]
    · have : (((k : α), v).1 != b) = true := by simpa using hk
      rw [List.filter_cons, this]
      simp only [if_true]
      by_cases hak : a = k
      · subst hak
        rw [lookup_cons_self, lookup_cons_self]
      · rw [lookup_cons_ne _ _ _ _ hak, lookup_cons_ne _ _ _ _ hak, ih]

theorem filter_ne_of_lookup_none {α β : Type} [BEq α] [LawfulBEq α] {l : List (α × β)} {b : α}
    (h : List.lookup b l = none) : l.filter (fun e => e.1 != b) = l := by
  induction l with
  | nil => rfl
  | cons e t ih =>
    obtain ⟨k, v⟩ := e
    rw [List.lookup_cons] at h
    by_cases hk : b = k
    · subst hk; simp at h
    · have hb : (b == k) = false := beq_eq_false_iff_ne.mpr hk
      rw [hb] at h
      have : (((k : α), v).1 != b) = true := by simpa using fun he => hk he.symm
      rw [List.filter_cons, this]
      simp only [if_true]
      rw [ih h]

theorem lookup_map_if_ne {α β : Type} [BEq α] [LawfulBEq α] (l : List (α × β)) (n i : α)
    (f : β → β) (h : ¬ i = n) :
    List.lookup i (l.map (fun e => if e.1 == n then (e.1, f e.2) else e)) =
      List.lookup i l := by
  induction l with
  | nil => rfl
  | cons e t ih =>
    obtain ⟨k, v⟩ := e
    by_cases hk : k = n
    · subst hk
      have : ((((k : α), v).1 == k)) = true := by simp
      rw [List.map_cons, this]
      simp only [if_true]
      rw [lookup_cons_ne _ _ _ _ h, lookup_cons_ne _ _ _ _ h, ih]
    · have : ((((k : α), v).1 == n)) = false := beq_eq_false_iff_ne.mpr hk
      rw [List.map_cons, this]
      simp only [Bool.false_eq_true, if_false]
      by_cases hik : i = k
      · subst hik
        rw [lookup_cons_self, lookup_cons_self]
      · rw [lookup_cons_ne _ _ _ _ hik, lookup_cons_ne _ _ _ _ hik, ih]

theorem lookup_map_if_eq {α β : Type} [BEq α] [LawfulBEq α] (l : List (α × β)) (n : α)
    (f : β → β) :
    List.lookup n (l.map (fun e => if e.1 == n then (e.1, f e.2) else e)) =
      (List.lookup n l).map f := by
  induction l with
  | nil => rfl
  | cons e t ih =>
    obtain ⟨k, v⟩ := e
    by_cases hk : k = n
    · subst hk
      have : ((((k : α), v).1 == k)) = true := by simp
      rw [List.map_cons, this]
      simp only [if_true]
      rw [lookup_cons_self, lookup_cons_self]
      rfl
    · have : ((((k : α), v).1 == n)) = false := beq_eq_false_iff_ne.mpr hk
      rw [List.map_cons, this]
      simp only [Bool.false_eq_true, if_false]
      rw [lookup_cons_ne _ _ _ _ (fun he => hk he.symm),
        lookup_cons_ne _ _ _ _ (fun he => hk he.symm), ih]

/- Resolution lemmas for `osRealpath`. -/

theorem osRealpath_not_symlink (fs : FS) (p : String) (ino : Nat) (d : INodeData)
    (hl : List.lookup p fs.names = some ino)
    (hi : List.lookup ino fs.inodes = some d)
    (hns : d.isSymlink = false) : osRealpath fs p = p := by
  unfold osRealpath osRealpathAux
  simp only [hl, hi]
  cases d with
  | file m c a mt => rfl
  | dir m => rfl
  | symlink t => simp [INodeData.isSymlink] at hns

theorem osRealpath_of_lookup_none (fs : FS) (p : String)
    (h : List.lookup p fs.names = none) : osRealpath fs p = p := by
  unfold osRealpath osRealpathAux
  rw [h]

/- Shape of the store after a privatization transition of `_ensure_copy`:
the target path names a fresh inode holding a byte- and metadata-identical
clone of the target's old inode data, every other directory entry is intact,
and the staging entry is gone. -/

theorem ensureCopyAt_shared (fs : FS) (tmp rp : String) (ino : Nat) (d : INodeData)
    (hl : List.lookup rp fs.names = some ino)
    (hi : List.lookup ino fs.inodes = some d)
    (hnd : d.isDir = false)
    (hlc : 1 < linkCount fs ino)
    (ht : List.lookup (stagePath tmp rp) fs.names = none) :
    ensureCopyAt fs tmp rp =
      { names := (rp, fs.nextInode) :: fs.names.filter (fun e => e.1 != rp)
        inodes := (fs.nextInode, d) :: fs.inodes
        nextInode := fs.nextInode + 1 } := by
  have hne : ¬ stagePath tmp rp = rp := by
    intro h
    rw [h, hl] at ht
    exact Option.noConfusion ht
  unfold ensureCopyAt
  simp only [hl, hi]
  rw [if_neg (by omega), if_neg (by simp [hnd])]
  have h1 : ((stagePath tmp rp, fs.nextInode) :: fs.names).filter (fun e => e.1 != rp)
      = (stagePath tmp rp, fs.nextInode) :: fs.names.filter (fun e => e.1 != rp) := by
    rw [List.filter_cons]
    have hb : ((stagePath tmp rp, fs.nextInode).1 != rp) = true := by
      simpa using hne
    rw [hb]
    simp
  have h2 : ((stagePath tmp rp, fs.nextInode) ::
        fs.names.filter (fun e => e.1 != rp)).filter (fun e => e.1 != stagePath tmp rp)
      = fs.names.filter (fun e => e.1 != rp) := by
    rw [List.filter_cons]
    have hb : ((stagePath tmp rp, fs.nextInode).1 != stagePath tmp rp) = false := by simp
    rw [hb]
    simp only [Bool.false_eq_true, if_false]
    apply filter_ne_of_lookup_none
    rw [lookup_filter_ne _ _ _ hne, ht]
  simp only [FS.mk.injEq]
  rw [h1, h2]
  simp

theorem ensureCopyAt_post (fs : FS) (tmp rp : String) (ino : Nat) (d : INodeData)
    (hb : ∀ e ∈ fs.names, e.2 < fs.nextInode)
    (hl : List.lookup rp fs.names = some ino)
    (hi : List.lookup ino fs.inodes = some d)
    (hnd : d.isDir = false)
    (hlc : 1 < linkCount fs ino)
    (ht : List.lookup (stagePath tmp rp) fs.names = none) :
    List.lookup rp (ensureCopyAt fs tmp rp).names = some fs.nextInode ∧
    List.lookup fs.nextInode (ensureCopyAt fs tmp rp).inodes = some d ∧
    linkCount (ensureCopyAt fs tmp rp) fs.nextInode = 1 ∧
    ¬ fs.nextInode = ino ∧
    (∀ p, ¬ p = rp → List.lookup p (ensureCopyAt fs tmp rp).names = List.lookup p fs.names) ∧
    (∀ i, ¬ i = fs.nextInode →
      List.lookup i (ensureCopyAt fs tmp rp).inodes = List.lookup i fs.inodes) := by
  rw [ensureCopyAt_shared fs tmp rp ino d hl hi hnd hlc ht]
  refine ⟨lookup_cons_self _ _ _, lookup_cons_self _ _ _, ?_, ?_, ?_, ?_⟩
  · show ((rp, fs.nextInode) :: fs.names.filter (fun e => e.1 != rp)).countP
        (fun e => e.2 == fs.nextInode) = 1
    rw [List.countP_cons_of_pos _ _ (by simp)]
    have hz : (fs.names.filter (fun e => e.1 != rp)).countP
        (fun e => e.2 == fs.nextInode) = 0 := by
      rw [List.countP_eq_zero]
      intro e he
      have h1 := hb e (List.mem_of_mem_filter he)
      simp only [beq_iff_eq]
      omega
    rw [hz]
  · have hm := mem_of_lookup_eq_some hl
    have := hb _ hm
    omega
  · intro p hp
    show List.lookup p ((rp, fs.nextInode) :: fs.names.filter (fun e => e.1 != rp)) = _
    rw [lookup_cons_ne _ _ _ _ hp, lookup_filter_ne _ _ _ hp]
  · intro i hi2
    show List.lookup i ((fs.nextInode, d) :: fs.inodes) = _
    rw [lookup_cons_ne _ _ _ _ hi2]

theorem isPrefixOf_append_self {α : Type} [BEq α] [LawfulBEq α] (l r : List α) :
    l.isPrefixOf (l ++ r) = true := by
  induction l with
  | nil => simp [List.isPrefixOf]
  | cons a t ih => simp [List.isPrefixOf, ih]

/-- C5: for every path handed to `_ensure_copy`, the call succeeds as a no-op
— the store is returned unchanged — whenever the resolved target does not
exist, or its link count is at most 1, or it is a directory regardless of its
reported link count. -/
theorem ensure_copy_noop_cases (fs : FS) (tmp full : String) (follow : Bool) :
    (List.lookup (if follow then osRealpath fs full else full) fs.names = none →
      ensureCopy fs tmp full follow = fs) ∧
    (∀ ino, List.lookup (if follow then osRealpath fs full else full) fs.names = some ino →
      linkCount fs ino ≤ 1 → ensureCopy fs tmp full follow = fs) ∧
    (∀ ino d, List.lookup (if follow then osRealpath fs full else full) fs.names = some ino →
      List.lookup ino fs.inodes = some d → d.isDir = true →
      ensureCopy fs tmp full follow = fs) := by
  refine ⟨?_, ?_, ?_⟩
  · intro h
    unfold ensureCopy ensureCopyAt
    rw [h]
  · intro ino h hlc
    simp only [ensureCopy, ensureCopyAt, h]
    cases h2 : List.lookup ino fs.inodes with
    | none => rfl
    | some d =>
      simp only [h2]
      rw [if_pos hlc]
  · intro ino d h h2 hd
    simp only [ensureCopy, ensureCopyAt, h, h2]
    by_cases hlc : linkCount fs ino ≤ 1
    · rw [if_pos hlc]
    · rw [if_neg hlc, if_pos hd]

/-- C5 witness: in `fsNoop`, privatization is a no-op on a missing path, on a
singly-linked regular file, and on a directory whose reported link count
is 2. -/
theorem ensure_copy_noop_cases_witness :
    ensureCopy fsNoop "/t" "/r/nope" true = fsNoop ∧
    ensureCopy fsNoop "/t" "/r/f" true = fsNoop ∧
    ensureCopy fsNoop "/t" "/r/d1" false = fsNoop := by
  refine ⟨?_, ?_, ?_⟩
  · exact (ensure_copy_noop_cases fsNoop "/t" "/r/nope" true).1 (by decide)
  · exact (ensure_copy_noop_cases fsNoop "/t" "/r/f" true).2.1 1 (by decide) (by decide)
  · exact (ensure_copy_noop_cases fsNoop "/t" "/r/d1" false).2.2 0 (INodeData.dir 493)
      (by decide) (by decide) (by decide)

/-- C2 (evidence of the code bug): on the shared regular file `/r/a` of
`fsShared`, the observable state sequence of `_ensure_copy` — copy to the
staging path, `os.unlink` of the original, `os.rename` into place — contains
an instant at which the original real path resolves to nothing, refuting the
claim that at every observable instant the path resolves to the old or the
new object. -/
theorem ensure_copy_unlink_window :
    ¬ (∀ s ∈ ensureCopyTrace fsShared "/t" "/r/a" true,
        (List.lookup "/r/a" s.names).isSome = true) := by
  decide

/-- The final state of the observable privatization sequence is exactly the
state `_ensure_copy` returns. -/
theorem ensureCopyTraceAt_last (fs : FS) (tmp rp : String) :
    (ensureCopyTraceAt fs tmp rp).getLastD fs = ensureCopyAt fs tmp rp := by
  cases h : List.lookup rp fs.names with
  | none =>
    simp only [ensureCopyTraceAt, ensureCopyAt, h, List.getLastD]
    rfl
  | some ino =>
    cases h2 : List.lookup ino fs.inodes with
    | none =>
      simp only [ensureCopyTraceAt, ensureCopyAt, h, h2, List.getLastD]
      rfl
    | some d =>
      simp only [ensureCopyTraceAt, ensureCopyAt, h, h2]
      by_cases hlc : linkCount fs ino ≤ 1
      · rw [if_pos hlc, if_pos hlc]
        rfl
      · rw [if_neg hlc, if_neg hlc]
        by_cases hd : d.isDir = true
        · rw [if_pos hd, if_pos hd]
          rfl
        · rw [if_neg hd, if_neg hd]
          rfl

/-- C7 (counterexample): the path translator applied to the virtual path
`//x` over mount root `/r` yields `/x`, which is not lexically inside the
mount root — the containment contract does not always hold. -/
theorem full_path_escapes :
    SafeHardlinkOps.fullPath opsEx "//x" = "/x" ∧ ¬ lexInside "/r" "/x" := by
  unfold lexInside
  decide

/-- C7 (amended): the path translator strips a single leading separator and
joins the remainder onto the mount root; whenever the stripped remainder is
not itself absolute and the mount root is nonempty and does not end in a
separator, the resulting real path stays lexically inside the mount root. -/
theorem full_path_inside (ops : SafeHardlinkOps) (p : String)
    (hroot : ¬ ops.root = "") (hre : pyEndsWith ops.root "/" = false)
    (hq : pyStartsWith (if pyStartsWith p "/" then strDrop1 p else p) "/" = false) :
    ops.fullPath p = ops.root ++ "/" ++ (if pyStartsWith p "/" then strDrop1 p else p) ∧
    lexInside ops.root (ops.fullPath p) := by
  have hjoin : ops.fullPath p =
      ops.root ++ "/" ++ (if pyStartsWith p "/" then strDrop1 p else p) := by
    unfold SafeHardlinkOps.fullPath pathJoin
    rw [hq]
    simp only [Bool.false_eq_true, if_false]
    rw [if_neg]
    simp [hroot, hre]
  refine ⟨hjoin, ?_⟩
  unfold lexInside
  refine Or.inr ?_
  rw [hjoin]
  unfold pyStartsWith
  rw [String.data_append (ops.root ++ "/")]
  exact isPrefixOf_append_self _ _

/- Helper lemmas about the payload steps of the mutating operations, on a
state where the target path names a non-symlink inode. -/

theorem ensureCopy_true_not_symlink (fs : FS) (tmp full : String) (ino : Nat) (d : INodeData)
    (hl : List.lookup full fs.names = some ino)
    (hi : List.lookup ino fs.inodes = some d)
    (hns : d.isSymlink = false) :
    ensureCopy fs tmp full true = ensureCopyAt fs tmp full := by
  show ensureCopyAt fs tmp (osRealpath fs full) = ensureCopyAt fs tmp full
  rw [osRealpath_not_symlink fs full ino d hl hi hns]

theorem osChmod_existing (fs : FS) (full : String) (m n : Nat) (d : INodeData)
    (hl : List.lookup full fs.names = some n)
    (hi : List.lookup n fs.inodes = some d)
    (hns : d.isSymlink = false) :
    osChmod fs full m = some (setModeAt fs n m) := by
  unfold osChmod
  simp only [osRealpath_not_symlink fs full n d hl hi hns, hl]

theorem osChown_existing (fs : FS) (full : String) (uid gid n : Nat)
    (hl : List.lookup full fs.names = some n) :
    osChown fs full uid gid = some fs := by
  unfold osChown
  simp only [hl]

theorem osOpen_existing (fs : FS) (full : String) (flags m n : Nat) (d : INodeData)
    (hl : List.lookup full fs.names = some n)
    (hi : List.lookup n fs.inodes = some d)
    (hns : d.isSymlink = false) :
    osOpen fs full flags m = some
      (if (hasTruncFlag flags && writeCapable flags) = true then (truncAt fs n, n)
        else (fs, n)) := by
  unfold osOpen
  simp only [osRealpath_not_symlink fs full n d hl hi hns, hl]
  by_cases htr : (hasTruncFlag flags && writeCapable flags) = true
  · rw [if_pos htr, if_pos htr]
  · rw [if_neg htr, if_neg htr]

theorem privatizedOutcome_of_frame (fs fsP fsOut : FS) (full : String) (ino n : Nat)
    (d : INodeData)
    (hnames : fsOut.names = fsP.names)
    (hframe : ∀ i, ¬ i = n → List.lookup i fsOut.inodes = List.lookup i fsP.inodes)
    (P1 : List.lookup full fsP.names = some n)
    (P3 : linkCount fsP n = 1)
    (P4 : ¬ n = ino)
    (P5 : ∀ p, ¬ p = full → List.lookup p fsP.names = List.lookup p fs.names)
    (P6 : ∀ i, ¬ i = n → List.lookup i fsP.inodes = List.lookup i fs.inodes)
    (hi : List.lookup ino fs.inodes = some d) :
    privatizedOutcome fs full ino n d fsOut := by
  have hni : ¬ ino = n := fun h => P4 h.symm
  refine ⟨by rw [hnames]; exact P1, ?_, ?_⟩
  · unfold linkCount
    rw [hnames]
    exact P3
  · intro p hp hpo
    constructor
    · rw [hnames, P5 p hp]
      exact hpo
    · rw [hframe ino hni, P6 ino hni]
      exact hi

/-- C1: on a regular file whose real path has link count above 1, each of the
four mutating operations of the mount — change mode, change owner,
write-capable open, and create — first privatizes the file: the interim
state maps the path to a fresh sole-owner inode (link count 1) carrying
byte-identical content and the same mode bits (the inode data is cloned
verbatim), the payload of the operation then proceeds from that state, and
every other hardlinked name of the original inode is left unaffected both in
the interim state and after the complete operation. -/
theorem cow_first_mutation (ops : SafeHardlinkOps) (fs : FS) (vp full : String)
    (m uid gid oflags cm cflags ino : Nat) (d : INodeData)
    (hfp : ops.fullPath vp = full)
    (hb : ∀ e ∈ fs.names, e.2 < fs.nextInode)
    (hl : List.lookup full fs.names = some ino)
    (hi : List.lookup ino fs.inodes = some d)
    (hreg : d.isRegFile = true)
    (hlc : 1 < linkCount fs ino)
    (ht : List.lookup (stagePath ops.tmp full) fs.names = none)
    (hwc : writeCapable oflags = true) :
    cowConclusion ops fs vp full m uid gid oflags cm cflags ino d := by
  have hns : d.isSymlink = false := by
    cases d with
    | file mo c a mt => rfl
    | dir mo => rfl
    | symlink t => simp [INodeData.isRegFile] at hreg
  have hnd : d.isDir = false := by
    cases d with
    | file mo c a mt => rfl
    | dir mo => simp [INodeData.isRegFile] at hreg
    | symlink t => rfl
  have hE : ensureCopy fs ops.tmp full true = ensureCopyAt fs ops.tmp full :=
    ensureCopy_true_not_symlink fs ops.tmp full ino d hl hi hns
  obtain ⟨P1, P2, P3, P4, P5, P6⟩ :=
    ensureCopyAt_post fs ops.tmp full ino d hb hl hi hnd hlc ht
  have hdata : List.lookup fs.nextInode (ensureCopyAt fs ops.tmp full).inodes = some d := P2
  have hchmod : ops.chmod fs vp m = osChmod (ensureCopyAt fs ops.tmp full) full m := by
    simp only [SafeHardlinkOps.chmod, hfp, hE]
  have hchown : ops.chown fs vp uid gid =
      osChown (ensureCopyAt fs ops.tmp full) full uid gid := by
    simp only [SafeHardlinkOps.chown, hfp]
    rfl
  have hopen : ops.openOp fs vp oflags =
      osOpen (ensureCopyAt fs ops.tmp full) full oflags 511 := by
    simp only [SafeHardlinkOps.openOp, hfp, hwc, if_true, hE]
  have hcreate : ops.create fs vp cm cflags =
      osOpen (ensureCopyAt fs ops.tmp full) full cflags cm := by
    simp only [SafeHardlinkOps.create, hfp, hE]
  simp only [cowConclusion]
  rw [hE]
  refine ⟨P1, P4, P3, P2, P5, P6, hchmod, hchown, hopen, hcreate, ?_, ?_, ?_, ?_⟩
  · intro fsc hfsc
    rw [hchmod, osChmod_existing _ full m fs.nextInode d P1 hdata hns] at hfsc
    cases hfsc
    exact privatizedOutcome_of_frame fs (ensureCopyAt fs ops.tmp full) _ full ino
      fs.nextInode d rfl
      (fun i hin => lookup_map_if_ne (ensureCopyAt fs ops.tmp full).inodes fs.nextInode i
        (fun x => x.withMode m) hin)
      P1 P3 P4 P5 P6 hi
  · intro fsc hfsc
    rw [hchown, osChown_existing _ full uid gid fs.nextInode P1] at hfsc
    cases hfsc
    exact privatizedOutcome_of_frame fs (ensureCopyAt fs ops.tmp full) _ full ino
      fs.nextInode d rfl (fun i _ => rfl) P1 P3 P4 P5 P6 hi
  · intro fso fd hfso
    rw [hopen, osOpen_existing _ full oflags 511 fs.nextInode d P1 hdata hns] at hfso
    by_cases htr : (hasTruncFlag oflags && writeCapable oflags) = true
    · rw [if_pos htr] at hfso
      cases hfso
      exact privatizedOutcome_of_frame fs (ensureCopyAt fs ops.tmp full) _ full ino
        fs.nextInode d rfl
        (fun i hin => lookup_map_if_ne (ensureCopyAt fs ops.tmp full).inodes fs.nextInode i
          INodeData.truncated hin)
        P1 P3 P4 P5 P6 hi
    · rw [if_neg htr] at hfso
      cases hfso
      exact privatizedOutcome_of_frame fs (ensureCopyAt fs ops.tmp full) _ full ino
        fs.nextInode d rfl (fun i _ => rfl) P1 P3 P4 P5 P6 hi
  · intro fso fd hfso
    rw [hcreate, osOpen_existing _ full cflags cm fs.nextInode d P1 hdata hns] at hfso
    by_cases htr : (hasTruncFlag cflags && writeCapable cflags) = true
    · rw [if_pos htr] at hfso
      cases hfso
      exact privatizedOutcome_of_frame fs (ensureCopyAt fs ops.tmp full) _ full ino
        fs.nextInode d rfl
        (fun i hin => lookup_map_if_ne (ensureCopyAt fs ops.tmp full).inodes fs.nextInode i
          INodeData.truncated hin)
        P1 P3 P4 P5 P6 hi
    · rw [if_neg htr] at hfso
      cases hfso
      exact privatizedOutcome_of_frame fs (ensureCopyAt fs ops.tmp full) _ full ino
        fs.nextInode d rfl (fun i _ => rfl) P1 P3 P4 P5 P6 hi

/-- C1 witness: the hardlinked pair `/r/a`, `/r/b` of `fsShared`, mutated
through the mount at virtual path `/a` (chmod to 0o700, chown to 3:4, open
with `O_WRONLY`, create with `O_CREAT|O_WRONLY` and mode 0o666). -/
theorem cow_first_mutation_witness :
    cowConclusion opsEx fsShared "/a" "/r/a" 448 3 4 1 438 65 0
      (INodeData.file 420 [88, 89] 5 6) :=
  cow_first_mutation opsEx fsShared "/a" "/r/a" 448 3 4 1 438 65 0
    (INodeData.file 420 [88, 89] 5 6) (by decide) (by decide) (by decide) (by decide)
    (by decide) (by decide) (by decide) (by decide)

/- Two-step symlink resolution lemmas. -/

theorem osRealpathAux_step (fs : FS) (fuel : Nat) (p t : String) (ino : Nat)
    (hl : List.lookup p fs.names = some ino)
    (hi : List.lookup ino fs.inodes = some (INodeData.symlink t)) :
    osRealpathAux fs (fuel + 1) p = osRealpathAux fs fuel t := by
  simp only [osRealpathAux, hl, hi]

theorem osRealpathAux_not_symlink (fs : FS) (fuel : Nat) (p : String) (ino : Nat)
    (d : INodeData)
    (hl : List.lookup p fs.names = some ino)
    (hi : List.lookup ino fs.inodes = some d)
    (hns : d.isSymlink = false) :
    osRealpathAux fs (fuel + 1) p = p := by
  simp only [osRealpathAux, hl, hi]
  cases d with
  | file mo c a mt => rfl
  | dir mo => rfl
  | symlink t => simp [INodeData.isSymlink] at hns

theorem osRealpath_two_step (fs : FS) (full t : String) (lino ino : Nat) (d : INodeData)
    (h1 : List.lookup full fs.names = some lino)
    (h2 : List.lookup lino fs.inodes = some (INodeData.symlink t))
    (h3 : List.lookup t fs.names = some ino)
    (h4 : List.lookup ino fs.inodes = some d)
    (hns : d.isSymlink = false) :
    osRealpath fs full = t := by
  obtain ⟨k, hk⟩ : ∃ k, fs.names.length = k + 1 := by
    cases hc : fs.names with
    | nil =>
      rw [hc] at h1
      simp at h1
    | cons a l => exact ⟨l.length, by simp [hc]⟩
  unfold osRealpath
  rw [hk, osRealpathAux_step fs (k + 1) full t lino h1 h2,
    osRealpathAux_not_symlink fs k t ino d h3 h4 hns]

/-- C3 (counterexample): in `fsLink`, the virtual path `/link` is a symlink
to the shared regular file `/r/target`.  The source's change-mode operation
dereferences before privatizing — the referent `/r/target` ends up remapped
to the fresh inode 3 — whereas the claimed non-dereferencing behaviour would
leave it at the original inode 0; the two disagree. -/
theorem chmod_not_nondereferencing :
    ¬ SafeHardlinkOps.chmod opsEx fsLink "/link" 448 =
        chmodNonDereferencing opsEx fsLink "/link" 448 ∧
    (SafeHardlinkOps.chmod opsEx fsLink "/link" 448).map
        (fun s => List.lookup "/r/target" s.names) = some (some 3) ∧
    (chmodNonDereferencing opsEx fsLink "/link" 448).map
        (fun s => List.lookup "/r/target" s.names) = some (some 0) := by
  refine ⟨by decide, by decide, by decide⟩

/-- C3 (amended): the change-mode operation invokes `_ensure_copy` in
dereferencing mode — following symlinks, with the default
`follow_symlinks=True` — so the shared referent of a symlink is privatized,
and the new mode is then applied to the referent's fresh private inode. -/
theorem chmod_deref_privatizes (ops : SafeHardlinkOps) (fs : FS) (vp full rp : String)
    (m lino ino : Nat) (d : INodeData)
    (hfp : ops.fullPath vp = full)
    (hb : ∀ e ∈ fs.names, e.2 < fs.nextInode)
    (hlink : List.lookup full fs.names = some lino)
    (hlinkd : List.lookup lino fs.inodes = some (INodeData.symlink rp))
    (hrl : List.lookup rp fs.names = some ino)
    (hri : List.lookup ino fs.inodes = some d)
    (hreg : d.isRegFile = true)
    (hlc : 1 < linkCount fs ino)
    (ht : List.lookup (stagePath ops.tmp rp) fs.names = none) :
    chmodDerefConclusion ops fs vp full rp m ino d := by
  have hns : d.isSymlink = false := by
    cases d with
    | file mo c a mt => rfl
    | dir mo => rfl
    | symlink u => simp [INodeData.isRegFile] at hreg
  have hnd : d.isDir = false := by
    cases d with
    | file mo c a mt => rfl
    | dir mo => simp [INodeData.isRegFile] at hreg
    | symlink u => rfl
  have hfr : ¬ full = rp := by
    intro h
    rw [h] at hlink
    have hli : lino = ino := Option.some.inj (hlink.symm.trans hrl)
    rw [hli, hri] at hlinkd
    have hds := Option.some.inj hlinkd
    rw [hds] at hreg
    simp [INodeData.isRegFile] at hreg
  have hrp : osRealpath fs full = rp :=
    osRealpath_two_step fs full rp lino ino d hlink hlinkd hrl hri hns
  have hE : ensureCopy fs ops.tmp full true = ensureCopyAt fs ops.tmp rp := by
    show ensureCopyAt fs ops.tmp (osRealpath fs full) = ensureCopyAt fs ops.tmp rp
    rw [hrp]
  obtain ⟨P1, P2, P3, P4, P5, P6⟩ :=
    ensureCopyAt_post fs ops.tmp rp ino d hb hrl hri hnd hlc ht
  have hlino : lino < fs.nextInode := hb _ (mem_of_lookup_eq_some hlink)
  have hlin : ¬ lino = fs.nextInode := by omega
  have hrp2 : osRealpath (ensureCopyAt fs ops.tmp rp) full = rp := by
    apply osRealpath_two_step (ensureCopyAt fs ops.tmp rp) full rp lino fs.nextInode d
    · rw [P5 full hfr]
      exact hlink
    · rw [P6 lino hlin]
      exact hlinkd
    · exact P1
    · exact P2
    · exact hns
  have hchmod : ops.chmod fs vp m =
      some (setModeAt (ensureCopyAt fs ops.tmp rp) fs.nextInode m) := by
    simp only [SafeHardlinkOps.chmod, hfp, hE]
    unfold osChmod
    simp only [hrp2, P1]
  simp only [chmodDerefConclusion]
  rw [hE]
  refine ⟨hchmod, P1, P3, P2, ?_, P5, ?_⟩
  · show List.lookup fs.nextInode
        ((ensureCopyAt fs ops.tmp rp).inodes.map
          (fun e => if e.1 == fs.nextInode then (e.1, e.2.withMode m) else e)) =
      some (d.withMode m)
    rw [lookup_map_if_eq (ensureCopyAt fs ops.tmp rp).inodes fs.nextInode
      (fun x => x.withMode m), P2]
    rfl
  · exact privatizedOutcome_of_frame fs (ensureCopyAt fs ops.tmp rp) _ rp ino
      fs.nextInode d rfl
      (fun i hin => lookup_map_if_ne (ensureCopyAt fs ops.tmp rp).inodes fs.nextInode i
        (fun x => x.withMode m) hin)
      P1 P3 P4 P5 P6 hri

/-- C3 witness: the amended dereferencing behaviour on the concrete store
`fsLink` (chmod of `/link` to 0o700 privatizes `/r/target` into inode 3). -/
theorem chmod_deref_privatizes_witness :
    chmodDerefConclusion opsEx fsLink "/link" "/r/link" "/r/target" 448 0
      (INodeData.file 420 [88] 1 2) :=
  chmod_deref_privatizes opsEx fsLink "/link" "/r/link" "/r/target" 448 2 0
    (INodeData.file 420 [88] 1 2) (by decide) (by decide) (by decide) (by decide)
    (by decide) (by decide) (by decide) (by decide) (by decide)

/-- C4: the open operation runs `_ensure_copy` before opening exactly when
the requested flags are write-capable (contain `O_WRONLY` or `O_RDWR`): a
write-capable open is the privatization followed by `os.open`, while a
non-write-capable open is a plain `os.open` and, on an existing target,
returns the store completely unchanged — so the link count of a shared file
opened read-only is untouched. -/
theorem open_write_gates_privatization (ops : SafeHardlinkOps) (fs : FS) (vp : String)
    (flags : Nat) :
    (writeCapable flags = true →
      ops.openOp fs vp flags =
        osOpen (ensureCopy fs ops.tmp (ops.fullPath vp) true) (ops.fullPath vp) flags 511) ∧
    (writeCapable flags = false →
      ops.openOp fs vp flags = osOpen fs (ops.fullPath vp) flags 511 ∧
      ∀ ino, List.lookup (osRealpath fs (ops.fullPath vp)) fs.names = some ino →
        ops.openOp fs vp flags = some (fs, ino)) := by
  constructor
  · intro hwc
    simp only [SafeHardlinkOps.openOp, hwc, if_true]
  · intro hwc
    have h1 : ops.openOp fs vp flags = osOpen fs (ops.fullPath vp) flags 511 := by
      simp only [SafeHardlinkOps.openOp, hwc, Bool.false_eq_true, if_false]
    refine ⟨h1, ?_⟩
    intro ino hino
    rw [h1]
    unfold osOpen
    simp only [hino]
    have htr : (hasTruncFlag flags && writeCapable flags) = false := by
      rw [hwc]
      exact Bool.and_false _
    rw [htr]
    simp

/-- C4 witness: on the shared file of `fsShared`, a read-only open (flags 0)
returns the store unchanged, while a write open (flags `O_WRONLY`) factors
through the privatization. -/
theorem open_write_gates_privatization_witness :
    SafeHardlinkOps.openOp opsEx fsShared "/a" 0 = some (fsShared, 0) ∧
    SafeHardlinkOps.openOp opsEx fsShared "/a" 1 =
      osOpen (ensureCopy fsShared opsEx.tmp (opsEx.fullPath "/a") true)
        (opsEx.fullPath "/a") 1 511 := by
  constructor
  · exact ((open_write_gates_privatization opsEx fsShared "/a" 0).2 (by decide)).2 0
      (by decide)
  · exact (open_write_gates_privatization opsEx fsShared "/a" 1).1 (by decide)

/-- C6: the create operation invokes `_ensure_copy` unconditionally before
opening: it is always the privatization followed by `os.open`; on a path
with no entry the privatization is a no-op and the file is created directly
— the resulting store is the old one plus exactly one fresh empty file
entry, with no copy made; and on an existing shared regular file the
privatization runs first, so the opened file is the fresh sole-owner inode
and other hardlinked names are unaffected. -/
theorem create_unconditional_ensure (ops : SafeHardlinkOps) (fs : FS) (vp full : String)
    (m flags ino : Nat) (d : INodeData)
    (hfp : ops.fullPath vp = full) :
    ops.create fs vp m flags = osOpen (ensureCopy fs ops.tmp full true) full flags m ∧
    (List.lookup full fs.names = none → hasCreatFlag flags = true →
      ensureCopy fs ops.tmp full true = fs ∧
      ops.create fs vp m flags = some
        ({ names := (full, fs.nextInode) :: fs.names
           inodes := (fs.nextInode, INodeData.file m [] 0 0) :: fs.inodes
           nextInode := fs.nextInode + 1 }, fs.nextInode)) ∧
    ((∀ e ∈ fs.names, e.2 < fs.nextInode) → List.lookup full fs.names = some ino →
      List.lookup ino fs.inodes = some d → d.isRegFile = true → 1 < linkCount fs ino →
      List.lookup (stagePath ops.tmp full) fs.names = none →
      ∀ fso fd, ops.create fs vp m flags = some (fso, fd) →
        privatizedOutcome fs full ino fs.nextInode d fso) := by
  have hcr : ops.create fs vp m flags =
      osOpen (ensureCopy fs ops.tmp full true) full flags m := by
    simp only [SafeHardlinkOps.create, hfp]
  refine ⟨hcr, ?_, ?_⟩
  · intro h0 hc
    have hrp : osRealpath fs full = full := osRealpath_of_lookup_none fs full h0
    have hE : ensureCopy fs ops.tmp full true = fs := by
      show ensureCopyAt fs ops.tmp (osRealpath fs full) = fs
      rw [hrp]
      unfold ensureCopyAt
      rw [h0]
    refine ⟨hE, ?_⟩
    rw [hcr, hE]
    unfold osOpen
    simp only [hrp, h0, hc, if_true]
  · intro hb hl hi hreg hlc ht fso fd hfso
    have hns : d.isSymlink = false := by
      cases d with
      | file mo c a mt => rfl
      | dir mo => rfl
      | symlink u => simp [INodeData.isRegFile] at hreg
    have hnd : d.isDir = false := by
      cases d with
      | file mo c a mt => rfl
      | dir mo => simp [INodeData.isRegFile] at hreg
      | symlink u => rfl
    have hE : ensureCopy fs ops.tmp full true = ensureCopyAt fs ops.tmp full :=
      ensureCopy_true_not_symlink fs ops.tmp full ino d hl hi hns
    obtain ⟨P1, P2, P3, P4, P5, P6⟩ :=
      ensureCopyAt_post fs ops.tmp full ino d hb hl hi hnd hlc ht
    rw [hcr, hE, osOpen_existing _ full flags m fs.nextInode d P1 P2 hns] at hfso
    by_cases htr : (hasTruncFlag flags && writeCapable flags) = true
    · rw [if_pos htr] at hfso
      cases hfso
      exact privatizedOutcome_of_frame fs (ensureCopyAt fs ops.tmp full) _ full ino
        fs.nextInode d rfl
        (fun i hin => lookup_map_if_ne (ensureCopyAt fs ops.tmp full).inodes fs.nextInode i
          INodeData.truncated hin)
        P1 P3 P4 P5 P6 hi
    · rw [if_neg htr] at hfso
      cases hfso
      exact privatizedOutcome_of_frame fs (ensureCopyAt fs ops.tmp full) _ full ino
        fs.nextInode d rfl (fun i _ => rfl) P1 P3 P4 P5 P6 hi

/-- C6 witness: creating the brand-new file `/new.txt` on the empty store
(flags `O_CREAT|O_WRONLY`, mode 0o644): the privatization step is a no-op
and the store gains exactly the one fresh empty file. -/
theorem create_unconditional_ensure_witness :
    ensureCopy fsFresh opsEx.tmp "/r/new.txt" true = fsFresh ∧
    SafeHardlinkOps.create opsEx fsFresh "/new.txt" 420 65 = some
      ({ names := [("/r/new.txt", 0)]
         inodes := [(0, INodeData.file 420 [] 0 0)]
         nextInode := 1 }, 0) :=
  (create_unconditional_ensure opsEx fsFresh "/new.txt" "/r/new.txt" 420 65 0
    (INodeData.file 0 [] 0 0) (by decide)).2.1 (by decide) (by decide)

/-- C8: reading a symlink through the mount returns the stored target
unchanged when it is relative, and rewritten with
`os.path.relpath(target, root)` — relative to the mount root — when it is
absolute. -/
theorem readlink_rewrites_absolute (ops : SafeHardlinkOps) (fs : FS) (vp full t : String)
    (lino : Nat)
    (hfp : ops.fullPath vp = full)
    (hl : List.lookup full fs.names = some lino)
    (hi : List.lookup lino fs.inodes = some (INodeData.symlink t)) :
    (pyStartsWith t "/" = true → ops.readlink fs vp = some (pyRelpath t ops.root)) ∧
    (pyStartsWith t "/" = false → ops.readlink fs vp = some t) := by
  constructor
  · intro ha
    simp only [SafeHardlinkOps.readlink, hfp, hl, hi, ha, if_true]
  · intro ha
    simp only [SafeHardlinkOps.readlink, hfp, hl, hi, ha, Bool.false_eq_true, if_false]

/-- C8 witness: in `fsSymRead` the absolute stored target `/r/sub/f` of
`/r/l` is returned as `sub/f` (its rewrite relative to the mount root `/r`),
and the relative stored target `sub/g` of `/r/rel` is returned unchanged. -/
theorem readlink_rewrites_absolute_witness :
    SafeHardlinkOps.readlink opsEx fsSymRead "/l" = some (pyRelpath "/r/sub/f" "/r") ∧
    pyRelpath "/r/sub/f" "/r" = "sub/f" ∧
    SafeHardlinkOps.readlink opsEx fsSymRead "/rel" = some "sub/g" := by
  refine ⟨?_, by decide, ?_⟩
  · exact (readlink_rewrites_absolute opsEx fsSymRead "/l" "/r/l" "/r/sub/f" 0
      (by decide) (by decide) (by decide)).1 (by decide)
  · exact (readlink_rewrites_absolute opsEx fsSymRead "/rel" "/r/rel" "sub/g" 1
      (by decide) (by decide) (by decide)).2 (by decide)

/- Substring lemmas for the error-message claims. -/

theorem containsAux_nil {α : Type} [BEq α] (l : List α) :
    containsAux ([] : List α) l = true := by
  cases l with
  | nil => rfl
  | cons a as => simp [containsAux, List.isPrefixOf]

theorem containsAux_append_middle {α : Type} [BEq α] [LawfulBEq α] (a x b : List α) :
    containsAux x (a ++ (x ++ b)) = true := by
  induction a with
  | nil =>
    cases x with
    | nil => exact containsAux_nil _
    | cons c cs =>
      show containsAux (c :: cs) (c :: (cs ++ b)) = true
      unfold containsAux
      rw [show c :: (cs ++ b) = (c :: cs) ++ b from rfl, isPrefixOf_append_self]
      rfl
  | cons y ys ih =>
    show containsAux x (y :: (ys ++ (x ++ b))) = true
    unfold containsAux
    rw [ih]
    exact Bool.or_true _

theorem mentions_implMsg_cls (cls op : String) : mentions (implMsg cls op) cls = true := by
  unfold mentions implMsg
  have hd : ("Platform " ++ cls ++ " does not implement " ++ op ++ "()").data
      = "Platform ".data ++ (cls.data ++ ((" does not implement " ++ op ++ "()").data)) := by
    simp only [String.data_append, List.append_assoc]
  rw [hd]
  exact containsAux_append_middle _ _ _

theorem mentions_implMsg_op (cls op : String) : mentions (implMsg cls op) op = true := by
  unfold mentions implMsg
  have hd : ("Platform " ++ cls ++ " does not implement " ++ op ++ "()").data
      = ("Platform " ++ cls ++ " does not implement ").data ++ (op.data ++ "()".data) := by
    simp only [String.data_append, List.append_assoc]
  rw [hd]
  exact containsAux_append_middle _ _ _

/-- C9: invoking either resolver operation on a backend that does not
implement it yields the `ImplError` of the base class, whose message
contains both the backend's name and the name of the missing operation. -/
theorem unimplemented_capability_error (b : Backend) (args config : Nat) :
    (b.createSandboxImpl = none →
      b.createSandbox args = Except.error (implMsg b.name "create_sandbox") ∧
      mentions (implMsg b.name "create_sandbox") b.name = true ∧
      mentions (implMsg b.name "create_sandbox") "create_sandbox" = true) ∧
    (b.checkSandboxConfigImpl = none →
      b.checkSandboxConfig config = Except.error (implMsg b.name "check_sandbox_config") ∧
      mentions (implMsg b.name "check_sandbox_config") b.name = true ∧
      mentions (implMsg b.name "check_sandbox_config") "check_sandbox_config" = true) := by
  constructor
  · intro h
    refine ⟨?_, mentions_implMsg_cls _ _, mentions_implMsg_op _ _⟩
    unfold Backend.createSandbox
    rw [h]
  · intro h
    refine ⟨?_, mentions_implMsg_cls _ _, mentions_implMsg_op _ _⟩
    unfold Backend.checkSandboxConfig
    rw [h]

/-- C9 witness: the backend `backendEx` (named `Unix`, implementing
neither operation) fails both calls with messages naming the backend and
the operation. -/
theorem unimplemented_capability_error_witness :
    (Backend.createSandbox backendEx 0 =
        Except.error (implMsg backendEx.name "create_sandbox") ∧
      mentions (implMsg backendEx.name "create_sandbox") backendEx.name = true ∧
      mentions (implMsg backendEx.name "create_sandbox") "create_sandbox" = true) ∧
    (Backend.checkSandboxConfig backendEx 0 =
        Except.error (implMsg backendEx.name "check_sandbox_config") ∧
      mentions (implMsg backendEx.name "check_sandbox_config") backendEx.name = true ∧
      mentions (implMsg backendEx.name "check_sandbox_config") "check_sandbox_config"
        = true) :=
  ⟨(unimplemented_capability_error backendEx 0 0).1 rfl,
   (unimplemented_capability_error backendEx 0 0).2 rfl⟩

/-- C10: once `get_platform` has created and cached a backend instance,
every subsequent call — under any host OS and any environment override —
returns that same instance with the cache unchanged and without consulting
`_create_instance` (the instrumentation bit is `false`). -/
theorem get_platform_idempotent (os1 : Bool) (f1 : Option String) (b : PlatformImpl)
    (st1 : Option PlatformImpl) (r1 : Bool)
    (h : getPlatform none os1 f1 = Except.ok (b, st1, r1)) :
    st1 = some b ∧ r1 = true ∧
    ∀ (os2 : Bool) (f2 : Option String),
      getPlatform st1 os2 f2 = Except.ok (b, some b, false) := by
  unfold getPlatform at h
  cases hc : createInstance os1 f1 with
  | ok c =>
    rw [hc] at h
    simp only [Except.ok.injEq, Prod.mk.injEq] at h
    obtain ⟨hcb, hst, hr⟩ := h
    subst hcb
    refine ⟨hst.symm, hr.symm, ?_⟩
    intro os2 f2
    rw [← hst]
    rfl
  | error e =>
    rw [hc] at h
    exact absurd h (by simp)

/-- C10 witness: a first call on a Linux host with no override creates and
caches the Linux backend; every later call returns the very same instance
without re-running detection. -/
theorem get_platform_idempotent_witness :
    some PlatformImpl.linux = some PlatformImpl.linux ∧ true = true ∧
    ∀ (os2 : Bool) (f2 : Option String),
      getPlatform (some PlatformImpl.linux) os2 f2 =
        Except.ok (PlatformImpl.linux, some PlatformImpl.linux, false) :=
  get_platform_idempotent true none PlatformImpl.linux (some PlatformImpl.linux) true rfl

/-- C7 witness: the virtual path `/a` with a single leading separator
resolves to `/r/a`, inside the mount root `/r`. -/
theorem full_path_inside_witness :
    SafeHardlinkOps.fullPath opsEx "/a" =
      opsEx.root ++ "/" ++ (if pyStartsWith "/a" "/" then strDrop1 "/a" else "/a") ∧
    lexInside opsEx.root (SafeHardlinkOps.fullPath opsEx "/a") :=
  full_path_inside opsEx "/a" (by decide) (by decide) (by decide)
